import Mathlib

/-!
Shallow embedding of the schedule-generation engine of `src/app.py`
(a weekly duty-roster generator).  Pure data is translated directly;
Python's process-wide randomness (`random.choices`, `random.shuffle`,
`random.choice`) is modelled by an explicit stream of natural numbers
(`RNG`), each draw consuming one element of the stream and picking an
index modulo the pool size.  Python floats become exact rationals,
with `Option ℚ` standing for `float` extended with `+inf` (`none`).
Python `dict`s keyed by employee code become association lists or
total functions with an explicit default, mirroring `dict.get`.
-/

/-- Explicit randomness source: an infinite stream of naturals plus a
position.  Each random draw reads the current element and advances. -/
structure RNG where
  stream : Nat → Nat
  pos : Nat

def RNG.next (r : RNG) : Nat × RNG :=
  (r.stream r.pos, { r with pos := r.pos + 1 })

/-- `Counter.__getitem__` / `Counter.get(_, 0)`-style counter update:
`bump c e` increments the count of `e`. -/
def bump (c : String → Nat) (e : String) : String → Nat :=
  fun x => if x = e then c x + 1 else c x

/-- `dict.get(key, default)` for a work-rate table modelled as a
partial map. -/
def wrGetD (wr : String → Option Int) (e : String) (d : Int) : Int :=
  match wr e with
  | some r => r
  | none => d

/-- `DAYS = ["Monday", ..., "Friday"]` (src/app.py line 110). -/
def DAYS : List String := ["Monday", "Tuesday", "Wednesday", "Thursday", "Friday"]

def monday : String := "Monday"
def tuesday : String := "Tuesday"
def wednesday : String := "Wednesday"
def thursday : String := "Thursday"
def friday : String := "Friday"

/-- `SCREEN_MR_PER_BLOCK = 1` (line 113). -/
def SCREEN_MR_PER_BLOCK : Int := 1

/-- `SCREEN_MR_WEEKLY_CAP = 1` (line 114). -/
def SCREEN_MR_WEEKLY_CAP : Nat := 1

/-- `labs = list(lab_rows["morning1"].keys())` (line 522): the four
lab-station identifiers in template order. -/
def labsInit : List String := ["LAB 3", "LAB 6", "LAB 9", "LAB 10"]

/-- Strict `<` on `float ∪ \x7b+inf\x7d` values (`none` is `+inf`):
exactly the comparison Python's `min` performs on the score values. -/
def optLt : Option ℚ → Option ℚ → Bool
  | none, _ => false
  | some _, none => true
  | some a, some b => decide (a < b)

/-- One draw of `random.choices(pool, weights=probs, k=1)[0]`: the
distribution is abstracted by the RNG stream, which selects an index
into `pool` modulo its length; the computed probabilities `probs` are
threaded for faithfulness but do not constrain which index the
abstract randomness yields. -/
def randomChoice1 (pool : List String) (probs : Option (List ℚ)) (r : RNG) : String × RNG :=
  let nr := r.next
  let _ := probs
  (pool.getD (nr.1 % pool.length) "", nr.2)

/-- The `while pool and len(picks) < k` loop body of
`_unique_weighted_choices` (lines 127-133), with the remaining number
of picks as fuel. -/
def uwcGo (weight_lookup : String → Option Int) : List String → Nat → RNG → List String × RNG
  | _, 0, r => ([], r)
  | [], _ + 1, r => ([], r)
  | p :: ps, fuel + 1, r =>
      let pool := p :: ps
      let weights := pool.map (fun c => max (1 / 1000 : ℚ) ((wrGetD weight_lookup c 0 : ℚ)))
      let total := weights.sum
      let probs := if total ≤ 0 then none else some (weights.map (fun w => w / total))
      let ch := randomChoice1 pool probs r
      let rest := uwcGo weight_lookup (pool.erase ch.1) fuel ch.2
      (ch.1 :: rest.1, rest.2)

/-- `_unique_weighted_choices(candidates, weight_lookup, k)`
(lines 118-134): choose `k` unique items, weights proportional to work
rate with an `0.001` floor, sampling without replacement. -/
def uniqueWeightedChoices (candidates : List String) (weight_lookup : String → Option Int)
    (k : Int) (r : RNG) : List String × RNG :=
  if k ≤ 0 ∨ candidates = [] then ([], r)
  else uwcGo weight_lookup candidates k.toNat r

/-- `weighted_sample_with_cap(candidates, weight_lookup, k, weekly_counts, cap)`
(lines 137-151): prefer people under the weekly cap; if not enough
candidates are under-cap, fill from the over-cap pool. -/
def weightedSampleWithCap (candidates : List String) (weight_lookup : String → Option Int)
    (k : Int) (weekly_counts : String → Nat) (cap : Nat) (r : RNG) : List String × RNG :=
  if k ≤ 0 ∨ candidates = [] then ([], r)
  else
    let under_cap := candidates.filter (fun c => decide (weekly_counts c < cap))
    if k ≤ (under_cap.length : Int) then
      uniqueWeightedChoices under_cap weight_lookup k r
    else
      let picks := under_cap
      let remaining_k := k - (picks.length : Int)
      let over_cap_pool := candidates.filter (fun c => decide (c ∉ picks))
      if 0 < remaining_k ∧ over_cap_pool ≠ [] then
        let ex := uniqueWeightedChoices over_cap_pool weight_lookup remaining_k r
        (picks ++ ex.1, ex.2)
      else (picks, r)

/-- The inputs the generation run reads: the week-available employee
list, per-day unavailability, the work-rate table and the historical
MDK counts (a `Counter`, i.e. a total function defaulting to 0). -/
structure Inputs where
  availableEmployees : List String
  unavailablePerDay : String → List String
  workRates : String → Option Int
  mdkHistory : String → Nat

/-- `mdk_days = ["Monday", "Tuesday", "Thursday"]` (line 467). -/
def mdkDays : List String := ["Monday", "Tuesday", "Thursday"]

/-- `avail_for_day` of the MDK loop (lines 476-482): available today,
positive work rate, and not the hard-coded excluded employee AL. -/
def availForDuty (inp : Inputs) (day : String) : List String :=
  inp.availableEmployees.filter (fun emp =>
    decide (emp ∉ inp.unavailablePerDay day) &&
    decide (0 < wrGetD inp.workRates emp 0) &&
    (emp != "AL"))

/-- `rate_factor = work_rates.get(emp, 100) / 100.0` (line 491). -/
def rateFactor (wr : String → Option Int) (emp : String) : ℚ :=
  (wrGetD wr emp 100 : ℚ) / 100

/-- The per-candidate MDK score (lines 490-494):
`(history / rate_factor if rate_factor > 0 else inf) + assigned * 10`,
with `none` standing for `+inf` (adding the finite penalty to `+inf`
leaves it `+inf`). -/
def mdkScore (hist : String → Nat) (wr : String → Option Int) (assigned : String → Nat)
    (emp : String) : Option ℚ :=
  let rf := rateFactor wr emp
  let penalty : ℚ := (assigned emp : ℚ) * 10
  if 0 < rf then some ((hist emp : ℚ) / rf + penalty) else none

/-- One comparison step of Python's `min`: replace the current best
only on a strictly smaller key, so ties keep the earlier element. -/
def foldStep (f : String → Option ℚ) (best y : String) : String :=
  if optLt (f y) (f best) then y else best

/-- Python's `min(scores, key=scores.get)` over the keys in insertion
order: keeps the first key, replacing it only on a strictly smaller
value, so ties go to the first-encountered key. -/
def pythonMinBy (f : String → Option ℚ) : List String → Option String
  | [] => none
  | x :: xs => some (xs.foldl (foldStep f) x)

/-- The MDK assignment loop over `mdk_days` (lines 474-498), threading
the `assigned_this_week` counter; a day with an empty pool is skipped
(`continue`). Returns the day → employee association list and the
final counter. -/
def mdkLoop (inp : Inputs) : List String → (String → Nat) → List (String × String) × (String → Nat)
  | [], assigned => ([], assigned)
  | day :: rest, assigned =>
      match pythonMinBy (mdkScore inp.mdkHistory inp.workRates assigned) (availForDuty inp day) with
      | none => mdkLoop inp rest assigned
      | some chosen =>
          let res := mdkLoop inp rest (bump assigned chosen)
          ((day, chosen) :: res.1, res.2)

/-- `mdk_assignments` as computed before the day loop (lines 466-498). -/
def mdkAssignments (inp : Inputs) : List (String × String) :=
  (mdkLoop inp mdkDays (fun _ => 0)).1

/-- The `assigned_this_week` counter after the MDK loop has processed
a given prefix of duty days. -/
def assignedAfter (inp : Inputs) (processed : List String) : String → Nat :=
  (mdkLoop inp processed (fun _ => 0)).2

/-- `avail_day` of the day loop (lines 530-534): available this week
and not unavailable today. -/
def availDay (inp : Inputs) (day : String) : List String :=
  inp.availableEmployees.filter (fun emp => decide (emp ∉ inp.unavailablePerDay day))

/-- `is_full_day_mdk` (line 538): Tuesday/Thursday with an MDK holder. -/
def isFullDayMdk (day : String) (mdk : Option String) : Bool :=
  (day == "Tuesday" || day == "Thursday") && mdk.isSome

/-- `is_monday_mdk_morning` (line 539): Monday with an MDK holder. -/
def isMondayMdkMorning (day : String) (mdk : Option String) : Bool :=
  (day == "Monday") && mdk.isSome

/-- `lab_eligible_morning` (lines 544-548). -/
def labEligibleMorning (inp : Inputs) (day : String) (mdk : Option String) : List String :=
  (availDay inp day).filter (fun emp =>
    !(isFullDayMdk day mdk && (some emp == mdk)) &&
    !(isMondayMdkMorning day mdk && (some emp == mdk)))

/-- `lab_priority_candidates` (lines 549-553): stable sort by
descending historical screen count (Python `sorted(..., reverse=True)`). -/
def labPriorityCandidates (counts : String → Nat) (eligible : List String) : List String :=
  eligible.mergeSort (fun a b => decide (counts b ≤ counts a))

/-- One draw-without-replacement step sequence modelling
`random.shuffle` (lines 558, 611): repeatedly pick a random remaining
element.  The result is a permutation of the input. -/
def shuffleGo : Nat → List String → RNG → List String × RNG
  | 0, _, r => ([], r)
  | _ + 1, [], r => ([], r)
  | fuel + 1, p :: ps, r =>
      let pool := p :: ps
      let nr := r.next
      let x := pool.getD (nr.1 % pool.length) p
      let res := shuffleGo fuel (pool.erase x) nr.2
      (x :: res.1, res.2)

def shuffleList (l : List String) (r : RNG) : List String × RNG :=
  shuffleGo l.length l r

/-- `screen_pool_morning` (lines 567-573). -/
def screenPoolMorning (inp : Inputs) (day : String) (mdk : Option String)
    (lab_people_morning : List String) : List String :=
  (availDay inp day).filter (fun emp =>
    decide (emp ∉ lab_people_morning) &&
    decide (0 < wrGetD inp.workRates emp 0) &&
    !(isFullDayMdk day mdk && (some emp == mdk)) &&
    !(isMondayMdkMorning day mdk && (some emp == mdk)))

/-- `available_for_afternoon` (lines 596-599): only the full-day
(Tuesday/Thursday) MDK exclusion applies in the afternoon. -/
def availableForAfternoon (inp : Inputs) (day : String) (mdk : Option String) : List String :=
  (availDay inp day).filter (fun emp => !(isFullDayMdk day mdk && (some emp == mdk)))

/-- `combined_candidates` (lines 602-604): morning screeners first,
then the rest of the afternoon pool. -/
def combinedAfternoonCandidates (screen_mr_morning avail_afternoon : List String) : List String :=
  let preferred := screen_mr_morning.filter (fun emp => decide (emp ∈ avail_afternoon))
  let others := avail_afternoon.filter (fun emp => decide (emp ∉ preferred))
  preferred ++ others

/-- The derangement test of lines 613-617: every person of the
afternoon assignment who also has a morning station gets a different
station. -/
def derangeOK (a morning : List (String × String)) : Bool :=
  a.all (fun pr =>
    match morning.lookup pr.1 with
    | some l => pr.2 != l
    | none => true)

/-- The `for _ in range(10)` afternoon re-shuffle loop (lines 608-618):
shuffle the station list, zip with the afternoon lab people, stop on a
derangement relative to the morning assignment, and otherwise keep the
last attempt.  Returns the assignment, the station list after the last
shuffle performed, and the advanced RNG. -/
def derangeSearch (people : List String) (morning : List (String × String)) :
    Nat → List String → RNG → List (String × String) × List String × RNG
  | 0, labsL, r => ([], labsL, r)
  | fuel + 1, labsL, r =>
      let sh := shuffleList labsL r
      let a := people.zip sh.1
      if derangeOK a morning || fuel == 0 then (a, sh.1, sh.2)
      else derangeSearch people morning fuel sh.1 sh.2

/-- The sequence of assignments the loop of lines 608-618 would try:
attempt `i` zips the people with the station list after `i+1`
successive shuffles. -/
def derangeAttempts (people : List String) : Nat → List String → RNG → List (List (String × String))
  | 0, _, _ => []
  | fuel + 1, labsL, r =>
      let sh := shuffleList labsL r
      (people.zip sh.1) :: derangeAttempts people fuel sh.1 sh.2

/-- `afternoon_screen_pool` (lines 624-628). -/
def afternoonScreenPool (inp : Inputs) (avail_afternoon lab_people_afternoon : List String) :
    List String :=
  avail_afternoon.filter (fun emp =>
    decide (emp ∉ lab_people_afternoon) &&
    decide (0 < wrGetD inp.workRates emp 0))

/-- `lunch_candidates` (line 652): Python `[...] or avail_day`. -/
def lunchCandidates (avail_day lab_people_morning : List String) : List String :=
  let nonLab := avail_day.filter (fun p => decide (p ∉ lab_people_morning))
  if nonLab = [] then avail_day else nonLab

/-- The MDK / lunch-guard resolution (lines 646-653): with an MDK
holder nothing extra is picked; otherwise, on Wednesday only, one
uniform `random.choice` from the lunch candidates. -/
def lunchPick (mdk : Option String) (day : String) (avail_day lab_people_morning : List String)
    (r : RNG) : Option String × RNG :=
  match mdk with
  | some _ => (none, r)
  | none =>
      if day == "Wednesday" then
        let lc := lunchCandidates avail_day lab_people_morning
        if lc = [] then (none, r)
        else
          let nr := r.next
          (some (lc.getD (nr.1 % lc.length) ""), nr.2)
      else (none, r)

/-- One day's slice of the generated week: the slots the loop body of
lines 528-653 writes for that day. -/
structure DayResult where
  morningAssign : List (String × String)
  screenMorning : List String
  afternoonAssign : List (String × String)
  screenAfternoon : List String
  lunchGuard : Option String
deriving DecidableEq, Inhabited

/-- The mutable state the day loop threads across days: the two
screening counters, the (shuffled in place) station list, and the
randomness source. -/
structure GenState where
  screenCounts : String → Nat
  screenWeekCounts : String → Nat
  labs : List String
  rng : RNG

/-- `lab_people_morning` (lines 549-555): the `min(4, ...)` highest-
priority morning-eligible candidates. -/
def labPeopleMorning (inp : Inputs) (day : String) (mdk : Option String)
    (counts : String → Nat) : List String :=
  let lp := labPriorityCandidates counts (labEligibleMorning inp day mdk)
  lp.take (min 4 lp.length)

/-- `screen_mr_morning` (lines 575-584): capped weighted sample from
the morning screen pool, or empty on an empty pool. -/
def morningScreenPick (inp : Inputs) (day : String) (mdk : Option String)
    (lab_people_morning : List String) (weekCounts : String → Nat) (r : RNG) :
    List String × RNG :=
  let spool := screenPoolMorning inp day mdk lab_people_morning
  if 0 < spool.length then
    weightedSampleWithCap spool inp.workRates SCREEN_MR_PER_BLOCK weekCounts
      SCREEN_MR_WEEKLY_CAP r
  else ([], r)

/-- `lab_people_afternoon` (lines 600-605). -/
def labPeopleAfternoon (inp : Inputs) (day : String) (mdk : Option String)
    (screen_mr_morning : List String) : List String :=
  let aa := availableForAfternoon inp day mdk
  (combinedAfternoonCandidates screen_mr_morning aa).take (min 4 aa.length)

/-- `screen_mr_afternoon` (lines 624-638). -/
def afternoonScreenPick (inp : Inputs) (day : String) (mdk : Option String)
    (lab_people_afternoon : List String) (weekCounts : String → Nat) (r : RNG) :
    List String × RNG :=
  let apool := afternoonScreenPool inp (availableForAfternoon inp day mdk) lab_people_afternoon
  if 0 < apool.length then
    weightedSampleWithCap apool inp.workRates SCREEN_MR_PER_BLOCK weekCounts
      SCREEN_MR_WEEKLY_CAP r
  else ([], r)

/-- The body of the day loop (lines 528-653) for a single day. -/
def planDay (inp : Inputs) (mdkA : List (String × String)) (day : String) (s : GenState) :
    DayResult × GenState :=
  let avail_day := availDay inp day
  let mdk := mdkA.lookup day
  let lab_people_morning := labPeopleMorning inp day mdk s.screenCounts
  let sh := shuffleList s.labs s.rng
  let morning_assign := lab_people_morning.zip sh.1
  let sm := morningScreenPick inp day mdk lab_people_morning s.screenWeekCounts sh.2
  let weekCounts1 := sm.1.foldl bump s.screenWeekCounts
  let counts1 := sm.1.foldl bump s.screenCounts
  if day == "Friday" then
    let lg := lunchPick mdk day avail_day lab_people_morning sm.2
    ({ morningAssign := morning_assign, screenMorning := sm.1,
       afternoonAssign := [], screenAfternoon := [], lunchGuard := lg.1 },
     { screenCounts := counts1, screenWeekCounts := weekCounts1, labs := sh.1, rng := lg.2 })
  else
    let lab_people_afternoon := labPeopleAfternoon inp day mdk sm.1
    let ds := derangeSearch lab_people_afternoon morning_assign 10 sh.1 sm.2
    let am := afternoonScreenPick inp day mdk lab_people_afternoon weekCounts1 ds.2.2
    let weekCounts2 := am.1.foldl bump weekCounts1
    let counts2 := am.1.foldl bump counts1
    let lg := lunchPick mdk day avail_day lab_people_morning am.2
    ({ morningAssign := morning_assign, screenMorning := sm.1,
       afternoonAssign := ds.1, screenAfternoon := am.1, lunchGuard := lg.1 },
     { screenCounts := counts2, screenWeekCounts := weekCounts2, labs := sh.1, rng := lg.2 })

/-- The day loop over `DAYS` (line 528), producing one `DayResult`
per day in order. -/
def planWeek (inp : Inputs) (mdkA : List (String × String)) :
    List String → GenState → List (String × DayResult) × GenState
  | [], s => ([], s)
  | day :: rest, s =>
      let pd := planDay inp mdkA day s
      let res := planWeek inp mdkA rest pd.2
      ((day, pd.1) :: res.1, res.2)

/-- The counters start empty and the station list starts in template
order (lines 522-526). -/
def initState (r : RNG) : GenState :=
  { screenCounts := fun _ => 0, screenWeekCounts := fun _ => 0, labs := labsInit, rng := r }

/-- One full generation run (lines 464-653): the MDK assignment pass
followed by the five-day planning loop. -/
def generateWeek (inp : Inputs) (r : RNG) : List (String × DayResult) :=
  (planWeek inp (mdkAssignments inp) DAYS (initState r)).1

/-- Spec-side scoring formula for the Duty Scorer, written from the
spec's words for comparison with the source-derived `mdkScore`:
`score(e) = history(e) / (work_rate(e)/100) + 10 × assigned_this_week(e)`,
`+inf` (`none`) when `work_rate(e)/100 ≤ 0`. -/
def specScore (history : String → Nat) (work_rate : String → Option Int)
    (assigned_this_week : String → Nat) (e : String) : Option ℚ :=
  let rf : ℚ := (wrGetD work_rate e 100 : ℚ) / 100
  if rf ≤ 0 then none else some ((history e : ℚ) / rf + 10 * (assigned_this_week e : ℚ))

/-- On duty day `d`, some eligible candidate not yet assigned this week
scores strictly below every eligible candidate already assigned this
week (counters taken after the MDK loop has processed `processed`). -/
def freshBeats (inp : Inputs) (processed : List String) (d : String) : Prop :=
  ∃ e, e ∈ availForDuty inp d ∧ assignedAfter inp processed e = 0 ∧
    ∀ a, a ∈ availForDuty inp d → 0 < assignedAfter inp processed a →
      optLt (mdkScore inp.mdkHistory inp.workRates (assignedAfter inp processed) e)
            (mdkScore inp.mdkHistory inp.workRates (assignedAfter inp processed) a) = true

/-! Concrete inputs used by the witness theorems. -/

/-- A deterministic randomness source: the all-zero stream. -/
def rngZero : RNG := { stream := fun _ => 0, pos := 0 }

def wcZero : String → Nat := fun _ => 0

/-- Work rates: AH, LS, DS at 100 percent, KL at 0 percent. -/
def wrW : String → Option Int := fun e =>
  if e = "AH" ∨ e = "LS" ∨ e = "DS" then some 100
  else if e = "KL" then some 0 else none

/-- A small roster: three full-time employees plus one at rate 0,
nobody unavailable, no history. -/
def inpW : Inputs :=
  { availableEmployees := ["AH", "LS", "DS", "KL"]
  , unavailablePerDay := fun _ => []
  , workRates := wrW
  , mdkHistory := fun _ => 0 }

/-- Work rates for the two-employee roster: both at 100 percent. -/
def wrC2 : String → Option Int := fun e =>
  if e = "AH" ∨ e = "LS" then some 100 else none

/-- Two available employees with equal full-time rates, where LS
carries 25 historical MDK assignments and AH none. -/
def inpC2 : Inputs :=
  { availableEmployees := ["AH", "LS"]
  , unavailablePerDay := fun _ => []
  , workRates := wrC2
  , mdkHistory := fun e => if e = "LS" then 25 else 0 }

/-- The generated week for the witness roster under the all-zero
randomness stream. -/
def weekW : List (String × DayResult) := generateWeek inpW rngZero

/-- The Monday record of the witness week. -/
def wRecMon : DayResult := (weekW.lookup monday).getD default

/-- The Tuesday record of the witness week. -/
def wRecTue : DayResult := (weekW.lookup tuesday).getD default

/-- The Wednesday record of the witness week. -/
def wRecWed : DayResult := (weekW.lookup wednesday).getD default

/-! Basic facts about the random-index pick, the shuffle and the
weighted samplers. -/

theorem getD_mod_mem (l : List String) (n : Nat) (d : String) (h : l ≠ []) :
    l.getD (n % l.length) d ∈ l := by
  have hlen : 0 < l.length := List.length_pos.mpr h
  have hlt : n % l.length < l.length := Nat.mod_lt _ hlen
  rw [List.getD_eq_getElem l d hlt]
  exact List.getElem_mem hlt

theorem randomChoice1_mem (pool : List String) (probs : Option (List ℚ)) (r : RNG)
    (h : pool ≠ []) : (randomChoice1 pool probs r).1 ∈ pool := by
  simp only [randomChoice1]
  exact getD_mod_mem _ _ _ h

theorem shuffleGo_perm :
    ∀ (fuel : Nat) (l : List String) (r : RNG),
      l.length ≤ fuel → ((shuffleGo fuel l r).1).Perm l := by
  intro fuel
  induction fuel with
  | zero =>
      intro l r h
      have hl : l = [] := List.length_eq_zero.mp (Nat.le_zero.mp h)
      subst hl
      simp [shuffleGo]
  | succ fuel ih =>
      intro l r h
      match l with
      | [] => simp [shuffleGo]
      | p :: ps =>
          simp only [shuffleGo]
          have hx : (p :: ps).getD (r.next.1 % (p :: ps).length) p ∈ p :: ps :=
            getD_mod_mem _ _ _ (by simp)
          have herase :
              ((p :: ps).erase ((p :: ps).getD (r.next.1 % (p :: ps).length) p)).length ≤ fuel := by
            rw [List.length_erase_of_mem hx]
            simp only [List.length_cons] at h ⊢
            omega
          have hrec := ih _ r.next.2 herase
          exact (hrec.cons _).trans (List.perm_cons_erase hx).symm

theorem shuffleList_perm (l : List String) (r : RNG) : ((shuffleList l r).1).Perm l :=
  shuffleGo_perm l.length l r le_rfl

theorem shuffleList_nodup (l : List String) (r : RNG) (h : l.Nodup) :
    ((shuffleList l r).1).Nodup :=
  (shuffleList_perm l r).symm.nodup h

theorem shuffleList_length (l : List String) (r : RNG) :
    ((shuffleList l r).1).length = l.length :=
  (shuffleList_perm l r).length_eq

theorem uwcGo_subset (wl : String → Option Int) :
    ∀ (fuel : Nat) (pool : List String) (r : RNG), (uwcGo wl pool fuel r).1 ⊆ pool := by
  intro fuel
  induction fuel with
  | zero => intro pool r; cases pool <;> simp [uwcGo]
  | succ fuel ih =>
      intro pool r
      match pool with
      | [] => simp [uwcGo]
      | p :: ps =>
          simp only [uwcGo]
          intro a ha
          rcases List.mem_cons.mp ha with h1 | h2
          · rw [h1]; exact randomChoice1_mem _ _ _ (by simp)
          · exact List.erase_subset _ _ (ih _ _ h2)

theorem uwcGo_nodup (wl : String → Option Int) :
    ∀ (fuel : Nat) (pool : List String) (r : RNG), pool.Nodup → (uwcGo wl pool fuel r).1.Nodup := by
  intro fuel
  induction fuel with
  | zero => intro pool r _; cases pool <;> simp [uwcGo]
  | succ fuel ih =>
      intro pool r hnd
      match pool with
      | [] => simp [uwcGo]
      | p :: ps =>
          simp only [uwcGo]
          rw [List.nodup_cons]
          constructor
          · intro hmem
            have hsub := uwcGo_subset wl fuel _ _ hmem
            exact hnd.not_mem_erase hsub
          · exact ih _ _ (hnd.erase _)

theorem uwcGo_length (wl : String → Option Int) :
    ∀ (fuel : Nat) (pool : List String) (r : RNG),
      (uwcGo wl pool fuel r).1.length = min fuel pool.length := by
  intro fuel
  induction fuel with
  | zero => intro pool r; cases pool <;> simp [uwcGo]
  | succ fuel ih =>
      intro pool r
      match pool with
      | [] => simp [uwcGo]
      | p :: ps =>
          simp only [uwcGo, List.length_cons]
          have hmem :
              (randomChoice1 (p :: ps)
                (if (List.map (fun c => max (1 / 1000 : ℚ) ((wrGetD wl c 0 : ℚ))) (p :: ps)).sum ≤ 0
                 then none
                 else some ((List.map (fun c => max (1 / 1000 : ℚ) ((wrGetD wl c 0 : ℚ))) (p :: ps)).map
                   (fun w => w / (List.map (fun c => max (1 / 1000 : ℚ) ((wrGetD wl c 0 : ℚ))) (p :: ps)).sum))) r).1
                ∈ p :: ps :=
            randomChoice1_mem _ _ _ (by simp)
          rw [ih, List.length_erase_of_mem hmem]
          simp only [List.length_cons]
          omega

theorem uniqueWeightedChoices_subset (c : List String) (wl : String → Option Int) (k : Int)
    (r : RNG) : (uniqueWeightedChoices c wl k r).1 ⊆ c := by
  unfold uniqueWeightedChoices
  split
  · simp
  · exact uwcGo_subset wl k.toNat c r

theorem uniqueWeightedChoices_nodup (c : List String) (wl : String → Option Int) (k : Int)
    (r : RNG) (h : c.Nodup) : (uniqueWeightedChoices c wl k r).1.Nodup := by
  unfold uniqueWeightedChoices
  split
  · simp
  · exact uwcGo_nodup wl k.toNat c r h

theorem uniqueWeightedChoices_length (c : List String) (wl : String → Option Int) (k : Int)
    (r : RNG) : (uniqueWeightedChoices c wl k r).1.length = min k.toNat c.length := by
  unfold uniqueWeightedChoices
  split
  · rename_i h
    rcases h with h | h
    · have : k.toNat = 0 := Int.toNat_of_nonpos h
      simp [this]
    · simp [h]
  · exact uwcGo_length wl k.toNat c r

theorem weightedSampleWithCap_subset (c : List String) (wl : String → Option Int) (k : Int)
    (wc : String → Nat) (cap : Nat) (r : RNG) :
    (weightedSampleWithCap c wl k wc cap r).1 ⊆ c := by
  simp only [weightedSampleWithCap]
  split
  · simp
  · split
    · intro a ha
      have hm := uniqueWeightedChoices_subset _ wl k r ha
      exact (List.mem_filter.mp hm).1
    · split
      · intro a ha
        simp only at ha
        rcases List.mem_append.mp ha with h1 | h2
        · exact (List.mem_filter.mp h1).1
        · have hm := uniqueWeightedChoices_subset _ wl _ r h2
          exact (List.mem_filter.mp hm).1
      · intro a ha
        exact (List.mem_filter.mp ha).1

/-- Claim C3: for every call to the Capped Selector
(`weighted_sample_with_cap`) with candidate pool, weekly usage counter,
cap and requested count `k`, if at least `k` candidates have usage
count strictly below the cap, then every returned candidate has usage
count strictly below the cap. -/
theorem weightedSampleWithCap_cap_preference (c : List String) (wl : String → Option Int)
    (k : Int) (wc : String → Nat) (cap : Nat) (r : RNG)
    (h : k ≤ ((c.filter (fun x => decide (wc x < cap))).length : Int)) :
    ∀ e ∈ (weightedSampleWithCap c wl k wc cap r).1, wc e < cap := by
  simp only [weightedSampleWithCap]
  split
  · simp
  · intro e he
    have hm := uniqueWeightedChoices_subset _ wl k r he
    exact of_decide_eq_true (List.mem_filter.mp hm).2

/-- Witness for C3: three candidates all under the cap, one slot
requested; the returned candidate is under the cap. -/
theorem weightedSampleWithCap_cap_preference_witness :
    ((1 : Int) ≤ (((["AH", "LS", "DS"] : List String).filter
        (fun x => decide (wcZero x < 1))).length : Int)) ∧
    wcZero ("AH") < 1 :=
  ⟨by decide,
    weightedSampleWithCap_cap_preference (["AH", "LS", "DS"] : List String) wrW 1 wcZero 1
      rngZero (by decide) "AH" (by decide)⟩

/-- Claim C5: for every call to the Weighted Sampler
(`_unique_weighted_choices`) on a pool of unique candidates with count
`k`, the result is a list of distinct elements of the pool of length
`min(k, pool size)` (with `k` clamped at 0): in particular it is empty
when `k ≤ 0` or the pool is empty, and it is shorter than `k` only
when the pool is shorter than `k`. -/
theorem uniqueWeightedChoices_spec (c : List String) (wl : String → Option Int) (k : Int)
    (r : RNG) (h : c.Nodup) :
    (uniqueWeightedChoices c wl k r).1 ⊆ c ∧ (uniqueWeightedChoices c wl k r).1.Nodup ∧
    (uniqueWeightedChoices c wl k r).1.length = min k.toNat c.length :=
  ⟨uniqueWeightedChoices_subset c wl k r, uniqueWeightedChoices_nodup c wl k r h,
    uniqueWeightedChoices_length c wl k r⟩

/-- Witness for C5: sampling 3 of a 5-element pool yields 3 distinct
pool elements. -/
theorem uniqueWeightedChoices_spec_witness :
    (["AH", "LS", "DS", "KL", "TH"] : List String).Nodup ∧
    ((uniqueWeightedChoices ["AH", "LS", "DS", "KL", "TH"] wrW 3 rngZero).1 ⊆
        (["AH", "LS", "DS", "KL", "TH"] : List String) ∧
      (uniqueWeightedChoices ["AH", "LS", "DS", "KL", "TH"] wrW 3 rngZero).1.Nodup ∧
      (uniqueWeightedChoices ["AH", "LS", "DS", "KL", "TH"] wrW 3 rngZero).1.length =
        min (3 : Int).toNat (["AH", "LS", "DS", "KL", "TH"] : List String).length) :=
  ⟨by decide, uniqueWeightedChoices_spec ["AH", "LS", "DS", "KL", "TH"] wrW 3 rngZero (by decide)⟩

/-! Order facts about `optLt` and the `min`-fold characterization. -/

theorem optLt_irrefl (a : Option ℚ) : optLt a a = false := by
  cases a <;> simp [optLt]

theorem optLt_asymm {a b : Option ℚ} (h : optLt a b = true) : optLt b a = false := by
  match a, b with
  | none, _ => simp [optLt] at h
  | some av, none => simp [optLt]
  | some av, some bv =>
      simp only [optLt, decide_eq_true_eq] at h
      simp only [optLt, decide_eq_false_iff_not]
      exact lt_asymm h

theorem optLt_le_lt {y b x : Option ℚ} (h1 : optLt y b = false) (h2 : optLt y x = true) :
    optLt b x = true := by
  match y, b, x with
  | none, _, _ => simp [optLt] at h2
  | some yv, none, _ => simp [optLt] at h1
  | some yv, some bv, none => simp [optLt]
  | some yv, some bv, some xv =>
      simp only [optLt, decide_eq_false_iff_not] at h1
      simp only [optLt, decide_eq_true_eq] at h2 ⊢
      exact lt_of_le_of_lt (not_lt.mp h1) h2

theorem optLt_lt_le {b x y : Option ℚ} (h1 : optLt b x = true) (h2 : optLt y x = false) :
    optLt b y = true := by
  match b, x, y with
  | none, _, _ => simp [optLt] at h1
  | some bv, none, none => simp [optLt]
  | some bv, none, some yv => simp [optLt] at h2
  | some bv, some xv, none => simp [optLt]
  | some bv, some xv, some yv =>
      simp only [optLt, decide_eq_false_iff_not] at h2
      simp only [optLt, decide_eq_true_eq] at h1 ⊢
      exact lt_of_lt_of_le h1 (not_lt.mp h2)

theorem foldl_foldStep_spec (f : String → Option ℚ) :
    ∀ (xs : List String) (x : String),
      ∃ l1 l2,
        x :: xs = l1 ++ xs.foldl (foldStep f) x :: l2 ∧
        (∀ e ∈ l1, optLt (f (xs.foldl (foldStep f) x)) (f e) = true) ∧
        ∀ e ∈ x :: xs, optLt (f e) (f (xs.foldl (foldStep f) x)) = false := by
  intro xs
  induction xs with
  | nil =>
      intro x
      exact ⟨[], [], rfl, by simp, by simp [optLt_irrefl]⟩
  | cons y ys ih =>
      intro x
      by_cases h : optLt (f y) (f x) = true
      · have hstep : List.foldl (foldStep f) x (y :: ys) = List.foldl (foldStep f) y ys := by
          simp [List.foldl_cons, foldStep, h]
        obtain ⟨l1, l2, hsplit, hstrict, hmin⟩ := ih y
        have hyb : optLt (f y) (f (List.foldl (foldStep f) y ys)) = false := hmin y (by simp)
        have hbx : optLt (f (List.foldl (foldStep f) y ys)) (f x) = true := optLt_le_lt hyb h
        refine ⟨x :: l1, l2, ?_, ?_, ?_⟩
        · rw [hstep, List.cons_append, ← hsplit]
        · intro e he
          rw [hstep]
          rcases List.mem_cons.mp he with rfl | he'
          · exact hbx
          · exact hstrict e he'
        · intro e he
          rw [hstep]
          rcases List.mem_cons.mp he with rfl | he'
          · exact optLt_asymm hbx
          · exact hmin e he'
      · have hb : optLt (f y) (f x) = false := by
          cases hc : optLt (f y) (f x)
          · rfl
          · exact absurd hc h
        have hstep : List.foldl (foldStep f) x (y :: ys) = List.foldl (foldStep f) x ys := by
          simp [List.foldl_cons, foldStep, hb]
        obtain ⟨l1, l2, hsplit, hstrict, hmin⟩ := ih x
        match l1, hsplit with
        | [], hsplit =>
            rw [List.nil_append] at hsplit
            injection hsplit with h1 h2
            refine ⟨[], y :: ys, ?_, by simp, ?_⟩
            · rw [hstep, List.nil_append, ← h1]
            · intro e he
              rw [hstep, ← h1]
              rcases List.mem_cons.mp he with rfl | he'
              · exact optLt_irrefl _
              · rcases List.mem_cons.mp he' with rfl | he''
                · exact hb
                · have hx := hmin e (List.mem_cons_of_mem x (h2 ▸ he''))
                  rw [← h1] at hx
                  exact hx
        | z :: l1', hsplit =>
            rw [List.cons_append] at hsplit
            injection hsplit with h1 h2
            subst h1
            have hbx : optLt (f (List.foldl (foldStep f) x ys)) (f x) = true :=
              hstrict x (List.mem_cons_self x l1')
            refine ⟨x :: y :: l1', l2, ?_, ?_, ?_⟩
            · rw [hstep]
              simp only [List.cons_append]
              rw [← h2]
            · intro e he
              rw [hstep]
              rcases List.mem_cons.mp he with rfl | he'
              · exact hbx
              · rcases List.mem_cons.mp he' with rfl | he''
                · exact optLt_lt_le hbx hb
                · exact hstrict e (List.mem_cons_of_mem x he'')
            · intro e he
              rw [hstep]
              rcases List.mem_cons.mp he with rfl | he'
              · exact hmin e (List.mem_cons_self e ys)
              · rcases List.mem_cons.mp he' with rfl | he''
                · exact optLt_asymm (optLt_lt_le hbx hb)
                · exact hmin e (List.mem_cons_of_mem x he'')

theorem pythonMinBy_spec (f : String → Option ℚ) (pool : List String) (h : pool ≠ []) :
    ∃ c l1 l2, pythonMinBy f pool = some c ∧ pool = l1 ++ c :: l2 ∧
      (∀ e ∈ l1, optLt (f c) (f e) = true) ∧ ∀ e ∈ pool, optLt (f e) (f c) = false := by
  match pool with
  | [] => exact absurd rfl h
  | x :: xs =>
      obtain ⟨l1, l2, hsplit, hstrict, hmin⟩ := foldl_foldStep_spec f xs x
      exact ⟨_, l1, l2, rfl, hsplit, hstrict, hmin⟩

theorem pythonMinBy_mem {f : String → Option ℚ} {pool : List String} {c : String}
    (h : pythonMinBy f pool = some c) : c ∈ pool := by
  match pool with
  | [] => simp [pythonMinBy] at h
  | x :: xs =>
      obtain ⟨c', l1, l2, he, hsplit, _, _⟩ := pythonMinBy_spec f (x :: xs) (by simp)
      rw [he] at h
      injection h with h
      subst h
      rw [hsplit]
      exact List.mem_append.mpr (Or.inr (List.mem_cons_self _ _))

theorem pythonMinBy_min {f : String → Option ℚ} {pool : List String} {c : String}
    (h : pythonMinBy f pool = some c) : ∀ e ∈ pool, optLt (f e) (f c) = false := by
  match pool with
  | [] => simp [pythonMinBy] at h
  | x :: xs =>
      obtain ⟨c', l1, l2, he, _, _, hmin⟩ := pythonMinBy_spec f (x :: xs) (by simp)
      rw [he] at h
      injection h with h
      subst h
      exact hmin

/-! Facts about association-list lookup and the MDK loop. -/

theorem lookup_mem {β : Type} :
    ∀ (l : List (String × β)) (d : String) (c : β), l.lookup d = some c → (d, c) ∈ l := by
  intro l
  induction l with
  | nil => intro d c h; simp [List.lookup] at h
  | cons p ps ih =>
      intro d c h
      obtain ⟨k, v⟩ := p
      cases hdk : d == k
      · rw [List.lookup_cons, hdk] at h
        exact List.mem_cons_of_mem _ (ih d c h)
      · rw [List.lookup_cons, hdk] at h
        injection h with hvc
        have hd : d = k := eq_of_beq hdk
        subst hd
        subst hvc
        exact List.mem_cons_self _ _

theorem mdkLoop_mem (inp : Inputs) :
    ∀ (days : List String) (a : String → Nat) (d c : String),
      (d, c) ∈ (mdkLoop inp days a).1 → d ∈ days ∧ c ∈ availForDuty inp d := by
  intro days
  induction days with
  | nil => intro a d c h; simp [mdkLoop] at h
  | cons day rest ih =>
      intro a d c h
      cases hm : pythonMinBy (mdkScore inp.mdkHistory inp.workRates a) (availForDuty inp day) with
      | none =>
          simp only [mdkLoop, hm] at h
          obtain ⟨h1, h2⟩ := ih a d c h
          exact ⟨List.mem_cons_of_mem _ h1, h2⟩
      | some chosen =>
          simp only [mdkLoop, hm] at h
          rcases List.mem_cons.mp h with heq | hmem
          · rw [Prod.mk.injEq] at heq
            obtain ⟨rfl, rfl⟩ := heq
            exact ⟨List.mem_cons_self _ _, pythonMinBy_mem hm⟩
          · obtain ⟨h1, h2⟩ := ih _ d c hmem
            exact ⟨List.mem_cons_of_mem _ h1, h2⟩

theorem mdkAssignments_mem (inp : Inputs) (d c : String)
    (h : (d, c) ∈ mdkAssignments inp) : d ∈ mdkDays ∧ c ∈ availForDuty inp d :=
  mdkLoop_mem inp mdkDays _ d c h

theorem pythonMinBy_isSome (f : String → Option ℚ) (pool : List String) (h : pool ≠ []) :
    ∃ c, pythonMinBy f pool = some c := by
  match pool with
  | [] => exact absurd rfl h
  | x :: xs => exact ⟨_, rfl⟩

theorem fresh_chosen_unassigned (hist : String → Nat) (wr : String → Option Int)
    (assigned : String → Nat) (pool : List String) (c e : String)
    (hc : pythonMinBy (mdkScore hist wr assigned) pool = some c)
    (he : e ∈ pool)
    (hbeats : ∀ a ∈ pool, 0 < assigned a →
      optLt (mdkScore hist wr assigned e) (mdkScore hist wr assigned a) = true) :
    assigned c = 0 := by
  by_contra hne
  have hpos : 0 < assigned c := Nat.pos_of_ne_zero hne
  have h1 := hbeats c (pythonMinBy_mem hc) hpos
  have h2 := pythonMinBy_min hc e he
  rw [h1] at h2
  exact Bool.noConfusion h2

theorem mdkScore_eq_specScore (hist : String → Nat) (wr : String → Option Int)
    (assigned : String → Nat) (e : String) :
    mdkScore hist wr assigned e = specScore hist wr assigned e := by
  simp only [mdkScore, specScore, rateFactor]
  by_cases h : (0 : ℚ) < (wrGetD wr e 100 : ℚ) / 100
  · rw [if_pos h, if_neg (not_le.mpr h)]
    congr 1
    ring
  · rw [if_neg h, if_pos (not_lt.mp h)]

/-- Claim C9: for every generation run and every duty day, the
employee with code AL is never selected as the MDK holder: the
`emp != "AL"` clause of `avail_for_day` hard-codes AL out of the
duty-eligible pool regardless of availability, rates or history. -/
theorem mdk_never_AL (inp : Inputs) (d : String) :
    (mdkAssignments inp).lookup d ≠ some ("AL") := by
  intro h
  have hmem := lookup_mem _ _ _ h
  have hav := (mdkAssignments_mem inp d _ hmem).2
  have hpred := (List.mem_filter.mp hav).2
  simp at hpred

/-- Claim C4: on a duty day, the Duty Scorer's selection from the
eligible pool is characterized by the spec formula
`score(e) = history(e)/(work_rate(e)/100) + 10 × assigned_this_week(e)`
(`+inf` when the rate factor is not positive): the code's score equals
the spec score on every candidate, and the chosen candidate scores no
higher than any candidate and strictly lower than every candidate
encountered before it (first-encountered tie-break). -/
theorem mdk_selection_spec (inp : Inputs) (day : String) (assigned : String → Nat)
    (h : availForDuty inp day ≠ []) :
    ∃ c l1 l2,
      pythonMinBy (mdkScore inp.mdkHistory inp.workRates assigned) (availForDuty inp day) =
        some c ∧
      (∀ e ∈ availForDuty inp day,
        mdkScore inp.mdkHistory inp.workRates assigned e =
          specScore inp.mdkHistory inp.workRates assigned e) ∧
      availForDuty inp day = l1 ++ c :: l2 ∧
      (∀ e ∈ l1,
        optLt (specScore inp.mdkHistory inp.workRates assigned c)
          (specScore inp.mdkHistory inp.workRates assigned e) = true) ∧
      ∀ e ∈ availForDuty inp day,
        optLt (specScore inp.mdkHistory inp.workRates assigned e)
          (specScore inp.mdkHistory inp.workRates assigned c) = false := by
  obtain ⟨c, l1, l2, hc, hsplit, hstrict, hmin⟩ :=
    pythonMinBy_spec (mdkScore inp.mdkHistory inp.workRates assigned) (availForDuty inp day) h
  refine ⟨c, l1, l2, hc, fun e _ => mdkScore_eq_specScore _ _ _ e, hsplit, ?_, ?_⟩
  · intro e he
    have := hstrict e he
    rwa [mdkScore_eq_specScore, mdkScore_eq_specScore] at this
  · intro e he
    have := hmin e he
    rwa [mdkScore_eq_specScore, mdkScore_eq_specScore] at this

/-- Witness for C4: the Monday duty pool of the example roster is
nonempty and the characterization holds there. -/
theorem mdk_selection_spec_witness :
    availForDuty inpW monday ≠ [] ∧
    (∃ c l1 l2,
      pythonMinBy (mdkScore inpW.mdkHistory inpW.workRates wcZero) (availForDuty inpW monday) =
        some c ∧
      (∀ e ∈ availForDuty inpW monday,
        mdkScore inpW.mdkHistory inpW.workRates wcZero e =
          specScore inpW.mdkHistory inpW.workRates wcZero e) ∧
      availForDuty inpW monday = l1 ++ c :: l2 ∧
      (∀ e ∈ l1,
        optLt (specScore inpW.mdkHistory inpW.workRates wcZero c)
          (specScore inpW.mdkHistory inpW.workRates wcZero e) = true) ∧
      ∀ e ∈ availForDuty inpW monday,
        optLt (specScore inpW.mdkHistory inpW.workRates wcZero e)
          (specScore inpW.mdkHistory inpW.workRates wcZero c) = false) :=
  ⟨by decide, mdk_selection_spec inpW monday wcZero (by decide)⟩

/-- Counterexample to claim C2 as stated: with employees AH
(history 0) and LS (history 25), both full-time and always available,
LS is an eligible candidate on each later duty day and is never
assigned the duty, yet AH receives the duty on all three duty days:
the ×10 same-week penalty does not prevent double-booking when the
history gap exceeds it. -/
theorem mdk_same_week_counterexample :
    mdkAssignments inpC2 = [("Monday", "AH"), ("Tuesday", "AH"), ("Thursday", "AH")] ∧
    ("LS") ∈ availForDuty inpC2 tuesday ∧ ("LS") ∈ availForDuty inpC2 thursday ∧
    ¬ ((mdkAssignments inpC2).map Prod.snd).Nodup := by with_unfolding_all decide

/-- Claim C2, amended: the three duty days are assigned to three
distinct employees in every run where Monday's duty pool is nonempty
and, on each later duty day, some eligible not-yet-assigned candidate
scores strictly below every eligible candidate already assigned this
week (the ×10 penalty alone guarantees this only when base-score gaps
stay under 10, so the premise is strengthened accordingly). -/
theorem mdk_three_distinct_amended (inp : Inputs)
    (h1 : availForDuty inp monday ≠ [])
    (h2 : freshBeats inp [monday] tuesday)
    (h3 : freshBeats inp [monday, tuesday] thursday) :
    (mdkAssignments inp).map Prod.fst = mdkDays ∧
    ((mdkAssignments inp).map Prod.snd).Nodup := by
  simp only [freshBeats, monday, tuesday, thursday] at h1 h2 h3
  obtain ⟨c1, hc1⟩ :=
    pythonMinBy_isSome (mdkScore inp.mdkHistory inp.workRates (fun _ => 0))
      (availForDuty inp "Monday") h1
  have ha1 : assignedAfter inp ["Monday"] = bump (fun _ => 0) c1 := by
    simp [assignedAfter, mdkLoop, hc1]
  rw [ha1] at h2
  obtain ⟨e2, he2, hf2, hb2⟩ := h2
  have hpool2 : availForDuty inp "Tuesday" ≠ [] := List.ne_nil_of_mem he2
  obtain ⟨c2, hc2⟩ :=
    pythonMinBy_isSome (mdkScore inp.mdkHistory inp.workRates (bump (fun _ => 0) c1))
      (availForDuty inp "Tuesday") hpool2
  have hc2fresh : bump (fun _ => 0) c1 c2 = 0 :=
    fresh_chosen_unassigned _ _ _ _ c2 e2 hc2 he2 hb2
  have hne21 : c2 ≠ c1 := by
    intro he
    rw [he] at hc2fresh
    simp [bump] at hc2fresh
  have ha2 : assignedAfter inp ["Monday", "Tuesday"] = bump (bump (fun _ => 0) c1) c2 := by
    simp [assignedAfter, mdkLoop, hc1, hc2]
  rw [ha2] at h3
  obtain ⟨e3, he3, hf3, hb3⟩ := h3
  have hpool3 : availForDuty inp "Thursday" ≠ [] := List.ne_nil_of_mem he3
  obtain ⟨c3, hc3⟩ :=
    pythonMinBy_isSome
      (mdkScore inp.mdkHistory inp.workRates (bump (bump (fun _ => 0) c1) c2))
      (availForDuty inp "Thursday") hpool3
  have hc3fresh : bump (bump (fun _ => 0) c1) c2 c3 = 0 :=
    fresh_chosen_unassigned _ _ _ _ c3 e3 hc3 he3 hb3
  have hne31 : c3 ≠ c1 := by
    intro he
    rw [he] at hc3fresh
    simp [bump, Ne.symm hne21] at hc3fresh
  have hne32 : c3 ≠ c2 := by
    intro he
    rw [he] at hc3fresh
    simp [bump] at hc3fresh
  have hfinal : mdkAssignments inp =
      [("Monday", c1), ("Tuesday", c2), ("Thursday", c3)] := by
    simp [mdkAssignments, mdkDays, mdkLoop, hc1, hc2, hc3]
  rw [hfinal]
  constructor
  · simp [mdkDays]
  · simp only [List.map_cons, List.map_nil]
    rw [List.nodup_cons, List.nodup_cons]
    refine ⟨?_, ?_, List.nodup_singleton c3⟩
    · intro hmem
      rcases List.mem_cons.mp hmem with h | h
      · exact hne21 h.symm
      · rw [List.mem_singleton] at h
        exact hne31 h.symm
    · intro hmem
      rw [List.mem_singleton] at hmem
      exact hne32 hmem.symm

/-- Witness for the amended C2: three full-time employees with no
history; each later duty day has a fresh candidate scoring 0 against
penalty 10 for the already-assigned one, and the three duty days get
three distinct holders. -/
theorem mdk_three_distinct_amended_witness :
    (availForDuty inpW monday ≠ []) ∧ freshBeats inpW [monday] tuesday ∧
    freshBeats inpW [monday, tuesday] thursday ∧
    ((mdkAssignments inpW).map Prod.fst = mdkDays ∧
      ((mdkAssignments inpW).map Prod.snd).Nodup) :=
  ⟨by decide,
    ⟨"LS", by decide, by with_unfolding_all decide, by with_unfolding_all decide⟩,
    ⟨"DS", by decide, by with_unfolding_all decide, by with_unfolding_all decide⟩,
    mdk_three_distinct_amended inpW (by decide)
      ⟨"LS", by decide, by with_unfolding_all decide, by with_unfolding_all decide⟩
      ⟨"DS", by decide, by with_unfolding_all decide, by with_unfolding_all decide⟩⟩

/-! Facts about the day-planner pools and the week loop. -/

theorem morningScreenPick_subset (inp : Inputs) (day : String) (mdk : Option String)
    (lab_people : List String) (weekCounts : String → Nat) (r : RNG) :
    (morningScreenPick inp day mdk lab_people weekCounts r).1 ⊆
      screenPoolMorning inp day mdk lab_people := by
  simp only [morningScreenPick]
  split
  · exact weightedSampleWithCap_subset _ _ _ _ _ _
  · simp

theorem afternoonScreenPick_subset (inp : Inputs) (day : String) (mdk : Option String)
    (lab_people : List String) (weekCounts : String → Nat) (r : RNG) :
    (afternoonScreenPick inp day mdk lab_people weekCounts r).1 ⊆
      afternoonScreenPool inp (availableForAfternoon inp day mdk) lab_people := by
  simp only [afternoonScreenPick]
  split
  · exact weightedSampleWithCap_subset _ _ _ _ _ _
  · simp

theorem labPeopleMorning_subset (inp : Inputs) (day : String) (mdk : Option String)
    (counts : String → Nat) :
    labPeopleMorning inp day mdk counts ⊆ labEligibleMorning inp day mdk := by
  intro e he
  have h1 : e ∈ labPriorityCandidates counts (labEligibleMorning inp day mdk) :=
    List.take_subset _ _ he
  exact List.mem_mergeSort.mp h1

theorem combinedAfternoonCandidates_subset (smm aa : List String) :
    combinedAfternoonCandidates smm aa ⊆ aa := by
  intro e he
  simp only [combinedAfternoonCandidates] at he
  rcases List.mem_append.mp he with h | h
  · exact of_decide_eq_true (List.mem_filter.mp h).2
  · exact (List.mem_filter.mp h).1

theorem labPeopleAfternoon_subset (inp : Inputs) (day : String) (mdk : Option String)
    (smm : List String) :
    labPeopleAfternoon inp day mdk smm ⊆ availableForAfternoon inp day mdk := by
  intro e he
  exact combinedAfternoonCandidates_subset _ _ (List.take_subset _ _ he)

theorem afternoonScreenPool_subset (inp : Inputs) (aa lpa : List String) :
    afternoonScreenPool inp aa lpa ⊆ aa :=
  fun _ he => (List.mem_filter.mp he).1

theorem derangeSearch_fst_mem (people : List String) (morning : List (String × String)) :
    ∀ (fuel : Nat) (labsL : List String) (r : RNG) (pr : String × String),
      pr ∈ (derangeSearch people morning fuel labsL r).1 → pr.1 ∈ people := by
  intro fuel
  induction fuel with
  | zero => intro labsL r pr h; simp [derangeSearch] at h
  | succ fuel ih =>
      intro labsL r pr h
      simp only [derangeSearch] at h
      split at h
      · obtain ⟨a, b⟩ := pr
        exact (List.of_mem_zip h).1
      · exact ih _ _ _ h

theorem not_mem_map_fst_zip_of_not_mem {l1 l2 : List String} {m : String}
    (h : m ∉ l1) : m ∉ (l1.zip l2).map Prod.fst := by
  intro hmem
  obtain ⟨pr, hpr, hfst⟩ := List.mem_map.mp hmem
  obtain ⟨a, b⟩ := pr
  have ha := (List.of_mem_zip hpr).1
  exact h (hfst ▸ ha)

theorem not_mem_labEligibleMorning (inp : Inputs) (day m : String)
    (h : isFullDayMdk day (some m) = true ∨ isMondayMdkMorning day (some m) = true) :
    m ∉ labEligibleMorning inp day (some m) := by
  intro hmem
  have hp := (List.mem_filter.mp hmem).2
  rcases h with h | h <;> simp [h] at hp

theorem not_mem_screenPoolMorning (inp : Inputs) (day m : String) (lab_people : List String)
    (h : isFullDayMdk day (some m) = true ∨ isMondayMdkMorning day (some m) = true) :
    m ∉ screenPoolMorning inp day (some m) lab_people := by
  intro hmem
  have hp := (List.mem_filter.mp hmem).2
  rcases h with h | h <;> simp [h] at hp

theorem not_mem_availableForAfternoon (inp : Inputs) (day m : String)
    (h : isFullDayMdk day (some m) = true) :
    m ∉ availableForAfternoon inp day (some m) := by
  intro hmem
  have hp := (List.mem_filter.mp hmem).2
  simp [h] at hp

theorem mem_availableForAfternoon_of_not_full (inp : Inputs) (day m : String)
    (h : isFullDayMdk day (some m) = false) (hav : m ∈ availDay inp day) :
    m ∈ availableForAfternoon inp day (some m) := by
  refine List.mem_filter.mpr ⟨hav, ?_⟩
  simp [h]

theorem availForDuty_subset_availDay (inp : Inputs) (day : String) :
    availForDuty inp day ⊆ availDay inp day := by
  intro e he
  obtain ⟨h1, h2⟩ := List.mem_filter.mp he
  refine List.mem_filter.mpr ⟨h1, ?_⟩
  simp only [Bool.and_eq_true] at h2
  exact h2.1.1

theorem planWeek_mem (inp : Inputs) (mdkA : List (String × String)) :
    ∀ (days : List String) (s : GenState) (d : String) (rec : DayResult),
      (d, rec) ∈ (planWeek inp mdkA days s).1 →
      d ∈ days ∧ ∃ s0, rec = (planDay inp mdkA d s0).1 := by
  intro days
  induction days with
  | nil => intro s d rec h; simp [planWeek] at h
  | cons day rest ih =>
      intro s d rec h
      simp only [planWeek] at h
      rcases List.mem_cons.mp h with heq | hmem
      · rw [Prod.mk.injEq] at heq
        obtain ⟨rfl, rfl⟩ := heq
        exact ⟨List.mem_cons_self _ _, ⟨s, rfl⟩⟩
      · obtain ⟨h1, h2⟩ := ih _ d rec hmem
        exact ⟨List.mem_cons_of_mem _ h1, h2⟩

theorem planWeek_keys (inp : Inputs) (mdkA : List (String × String)) :
    ∀ (days : List String) (s : GenState),
      (planWeek inp mdkA days s).1.map Prod.fst = days := by
  intro days
  induction days with
  | nil => intro s; simp [planWeek]
  | cons day rest ih => intro s; simp [planWeek, ih]

theorem lookup_keys_some {β : Type} :
    ∀ (l : List (String × β)) (d : String),
      d ∈ l.map Prod.fst → ∃ b, l.lookup d = some b := by
  intro l
  induction l with
  | nil => intro d h; simp at h
  | cons p ps ih =>
      intro d h
      obtain ⟨k, v⟩ := p
      by_cases hdk : d = k
      · subst hdk
        exact ⟨v, by simp [List.lookup_cons]⟩
      · have hd : d ∈ ps.map Prod.fst := by
          simp only [List.map_cons, List.mem_cons] at h
          rcases h with h | h
          · exact absurd h hdk
          · exact h
        obtain ⟨b, hb⟩ := ih d hd
        refine ⟨b, ?_⟩
        rw [List.lookup_cons]
        have hbeq : (d == k) = false := beq_eq_false_iff_ne.mpr hdk
        rw [hbeq]
        exact hb

theorem planDay_fullday_excl (inp : Inputs) (mdkA : List (String × String)) (day : String)
    (s : GenState) (m : String)
    (hday : day = "Tuesday" ∨ day = "Thursday")
    (hm : mdkA.lookup day = some m) :
    m ∉ ((planDay inp mdkA day s).1).morningAssign.map Prod.fst ∧
    m ∉ ((planDay inp mdkA day s).1).screenMorning ∧
    m ∉ ((planDay inp mdkA day s).1).afternoonAssign.map Prod.fst ∧
    m ∉ ((planDay inp mdkA day s).1).screenAfternoon ∧
    ((planDay inp mdkA day s).1).lunchGuard = none := by
  have hfull : isFullDayMdk day (some m) = true := by
    rcases hday with rfl | rfl <;> rfl
  have hexcl : isFullDayMdk day (some m) = true ∨ isMondayMdkMorning day (some m) = true :=
    Or.inl hfull
  have hfri : ¬ ((day == "Friday") = true) := by
    rcases hday with rfl | rfl <;> decide
  simp only [planDay, hm, if_neg hfri]
  refine ⟨?_, ?_, ?_, ?_, ?_⟩
  · exact not_mem_map_fst_zip_of_not_mem
      (fun hmem => not_mem_labEligibleMorning inp day m hexcl
        (labPeopleMorning_subset inp day (some m) s.screenCounts hmem))
  · intro hmem
    exact not_mem_screenPoolMorning inp day m _ hexcl
      (morningScreenPick_subset inp day (some m) _ _ _ hmem)
  · intro hmem
    obtain ⟨pr, hpr, hfst⟩ := List.mem_map.mp hmem
    have h1 := derangeSearch_fst_mem _ _ _ _ _ _ hpr
    rw [hfst] at h1
    exact not_mem_availableForAfternoon inp day m hfull
      (labPeopleAfternoon_subset inp day (some m) _ h1)
  · intro hmem
    exact not_mem_availableForAfternoon inp day m hfull
      (afternoonScreenPool_subset inp _ _
        (afternoonScreenPick_subset inp day (some m) _ _ _ hmem))
  · rfl

/-! Facts about the afternoon derangement search. -/

theorem getLastD_irrel {α : Type} :
    ∀ (l : List α), l ≠ [] → ∀ (d1 d2 : α), l.getLastD d1 = l.getLastD d2 := by
  intro l
  induction l with
  | nil => intro h; exact absurd rfl h
  | cons a t _ =>
      intro _ d1 d2
      cases t with
      | nil => rfl
      | cons b t' => simp only [List.getLastD_cons]

theorem map_snd_zip_eq_take {α β : Type} :
    ∀ (l1 : List α) (l2 : List β), (l1.zip l2).map Prod.snd = l2.take l1.length := by
  intro l1
  induction l1 with
  | nil => intro l2; simp
  | cons a t ih =>
      intro l2
      cases l2 with
      | nil => simp
      | cons b t2 => simp [List.zip_cons_cons, List.take_succ_cons, ih]

theorem derangeAttempts_length (people : List String) :
    ∀ (fuel : Nat) (labsL : List String) (r : RNG),
      (derangeAttempts people fuel labsL r).length = fuel := by
  intro fuel
  induction fuel with
  | zero => intro labsL r; rfl
  | succ fuel ih => intro labsL r; simp [derangeAttempts, ih]

theorem find?_cons_eval {α : Type} (p : α → Bool) (a : α) (l : List α) :
    List.find? p (a :: l) = if p a = true then some a else List.find? p l := by
  by_cases h : p a = true
  · rw [List.find?_cons_of_pos _ h, if_pos h]
  · rw [List.find?_cons_of_neg _ h, if_neg h]

theorem derangeSearch_succ (people : List String) (morning : List (String × String))
    (fuel : Nat) (labsL : List String) (r : RNG) :
    derangeSearch people morning (fuel + 1) labsL r =
      if (derangeOK (people.zip (shuffleList labsL r).1) morning || fuel == 0) = true
      then (people.zip (shuffleList labsL r).1, (shuffleList labsL r).1, (shuffleList labsL r).2)
      else derangeSearch people morning fuel (shuffleList labsL r).1 (shuffleList labsL r).2 :=
  rfl

theorem derangeAttempts_succ (people : List String) (fuel : Nat) (labsL : List String)
    (r : RNG) :
    derangeAttempts people (fuel + 1) labsL r =
      (people.zip (shuffleList labsL r).1) ::
        derangeAttempts people fuel (shuffleList labsL r).1 (shuffleList labsL r).2 :=
  rfl

theorem derangeSearch_eq_attempts (people : List String) (morning : List (String × String)) :
    ∀ (fuel : Nat) (labsL : List String) (r : RNG), fuel ≠ 0 →
      (derangeSearch people morning fuel labsL r).1 =
        ((derangeAttempts people fuel labsL r).find? (fun a => derangeOK a morning)).getD
          ((derangeAttempts people fuel labsL r).getLastD []) := by
  intro fuel
  induction fuel with
  | zero => intro labsL r h; exact absurd rfl h
  | succ fuel ih =>
      intro labsL r _
      by_cases hok :
          derangeOK (people.zip (shuffleList labsL r).1) morning = true
      · rw [derangeSearch_succ, derangeAttempts_succ]
        rw [if_pos (by rw [hok]; rfl)]
        rw [find?_cons_eval, if_pos hok]
        rfl
      · have hokf : derangeOK (people.zip (shuffleList labsL r).1) morning = false := by
          cases hx : derangeOK (people.zip (shuffleList labsL r).1) morning
          · rfl
          · exact absurd hx hok
        cases fuel with
        | zero =>
            rw [derangeSearch_succ, derangeAttempts_succ]
            rw [if_pos (by rw [hokf]; rfl)]
            rw [find?_cons_eval, if_neg hok]
            rfl
        | succ fuel' =>
            have hne2 : (fuel' + 1) ≠ 0 := Nat.succ_ne_zero fuel'
            have hrest :
                derangeAttempts people (fuel' + 1) (shuffleList labsL r).1
                  (shuffleList labsL r).2 ≠ [] := by
              intro hnil
              have hl := derangeAttempts_length people (fuel' + 1) (shuffleList labsL r).1
                (shuffleList labsL r).2
              rw [hnil] at hl
              simp at hl
            rw [derangeSearch_succ, derangeAttempts_succ]
            rw [if_neg (by rw [hokf]; simp)]
            rw [find?_cons_eval, if_neg hok]
            rw [List.getLastD_cons]
            rw [getLastD_irrel _ hrest _ ([] : List (String × String))]
            exact ih _ _ hne2

theorem derangeSearch_snd_nodup (people : List String) (morning : List (String × String)) :
    ∀ (fuel : Nat) (labsL : List String) (r : RNG), labsL.Nodup →
      (((derangeSearch people morning fuel labsL r).1).map Prod.snd).Nodup := by
  intro fuel
  induction fuel with
  | zero => intro labsL r _; simp [derangeSearch]
  | succ fuel ih =>
      intro labsL r h
      rw [derangeSearch_succ]
      split
      · rw [map_snd_zip_eq_take]
        exact (List.take_sublist _ _).nodup (shuffleList_nodup labsL r h)
      · exact ih _ _ (shuffleList_nodup labsL r h)

theorem derangeSearch_fst_eq (people : List String) (morning : List (String × String)) :
    ∀ (fuel : Nat) (labsL : List String) (r : RNG), fuel ≠ 0 →
      people.length ≤ labsL.length →
      ((derangeSearch people morning fuel labsL r).1).map Prod.fst = people := by
  intro fuel
  induction fuel with
  | zero => intro _ _ h; exact absurd rfl h
  | succ fuel ih =>
      intro labsL r _ hlen
      rw [derangeSearch_succ]
      split
      · exact List.map_fst_zip _ _ (by rw [shuffleList_length]; exact hlen)
      · rename_i hcond
        have hf : fuel ≠ 0 := by
          intro h0
          subst h0
          simp at hcond
        exact ih _ _ hf (by rw [shuffleList_length]; exact hlen)

theorem planDay_monday_excl (inp : Inputs) (mdkA : List (String × String)) (s : GenState)
    (m : String) (hm : mdkA.lookup ("Monday") = some m) :
    m ∉ ((planDay inp mdkA "Monday" s).1).morningAssign.map Prod.fst ∧
    m ∉ ((planDay inp mdkA "Monday" s).1).screenMorning := by
  have hexcl :
      isFullDayMdk "Monday" (some m) = true ∨ isMondayMdkMorning "Monday" (some m) = true :=
    Or.inr rfl
  have hfri : ¬ ((("Monday" : String) == "Friday") = true) := by decide
  simp only [planDay, hm, if_neg hfri]
  constructor
  · exact not_mem_map_fst_zip_of_not_mem
      (fun hmem => not_mem_labEligibleMorning inp _ m hexcl
        (labPeopleMorning_subset inp _ (some m) s.screenCounts hmem))
  · intro hmem
    exact not_mem_screenPoolMorning inp _ m _ hexcl
      (morningScreenPick_subset inp _ (some m) _ _ _ hmem)

theorem zero_rate_not_mem_screenPoolMorning (inp : Inputs) (day : String)
    (mdk : Option String) (lab_people : List String) (e : String)
    (hw : wrGetD inp.workRates e 0 = 0) :
    e ∉ screenPoolMorning inp day mdk lab_people := by
  intro h
  have hp := (List.mem_filter.mp h).2
  simp only [Bool.and_eq_true, decide_eq_true_eq] at hp
  have hr := hp.1.1.2
  omega

theorem zero_rate_not_mem_afternoonScreenPool (inp : Inputs) (aa lpa : List String)
    (e : String) (hw : wrGetD inp.workRates e 0 = 0) :
    e ∉ afternoonScreenPool inp aa lpa := by
  intro h
  have hp := (List.mem_filter.mp h).2
  simp only [Bool.and_eq_true, decide_eq_true_eq] at hp
  have hr := hp.2
  omega

theorem planDay_zero_rate (inp : Inputs) (mdkA : List (String × String)) (day : String)
    (s : GenState) (e : String) (hw : wrGetD inp.workRates e 0 = 0) :
    e ∉ ((planDay inp mdkA day s).1).screenMorning ∧
    e ∉ ((planDay inp mdkA day s).1).screenAfternoon := by
  by_cases hfri : (day == "Friday") = true
  · simp only [planDay, if_pos hfri]
    constructor
    · intro hmem
      exact zero_rate_not_mem_screenPoolMorning inp day _ _ e hw
        (morningScreenPick_subset inp day _ _ _ _ hmem)
    · simp
  · simp only [planDay, if_neg hfri]
    constructor
    · intro hmem
      exact zero_rate_not_mem_screenPoolMorning inp day _ _ e hw
        (morningScreenPick_subset inp day _ _ _ _ hmem)
    · intro hmem
      exact zero_rate_not_mem_afternoonScreenPool inp _ _ e hw
        (afternoonScreenPick_subset inp day _ _ _ _ hmem)

theorem lunchCandidates_ne_nil {avail_day lab_people : List String} (h : avail_day ≠ []) :
    lunchCandidates avail_day lab_people ≠ [] := by
  simp only [lunchCandidates]
  split
  · exact h
  · rename_i hne
    exact hne

theorem planDay_wednesday_lunch (inp : Inputs) (mdkA : List (String × String)) (s : GenState)
    (hmdk : mdkA.lookup ("Wednesday") = none)
    (h : availDay inp ("Wednesday") ≠ []) :
    ((planDay inp mdkA "Wednesday" s).1).lunchGuard.isSome = true := by
  have hfri : ¬ ((("Wednesday" : String) == "Friday") = true) := by decide
  simp only [planDay, hmdk, if_neg hfri]
  simp only [lunchPick]
  rw [if_pos (show (("Wednesday" : String) == "Wednesday") = true from rfl)]
  rw [if_neg (lunchCandidates_ne_nil h)]
  rfl

/-- Claim C1: for every generated week and every full-day duty day
(Tuesday or Thursday) with a duty holder, that holder appears in no
morning or afternoon lab assignment, no morning or afternoon screening
slot, and no lunch-guard slot of that day. -/
theorem fullday_duty_exclusive (inp : Inputs) (r : RNG) (d : String) (rec : DayResult)
    (m : String)
    (hday : d = "Tuesday" ∨ d = "Thursday")
    (hmem : (d, rec) ∈ generateWeek inp r)
    (hm : (mdkAssignments inp).lookup d = some m) :
    m ∉ rec.morningAssign.map Prod.fst ∧ m ∉ rec.screenMorning ∧
    m ∉ rec.afternoonAssign.map Prod.fst ∧ m ∉ rec.screenAfternoon ∧
    rec.lunchGuard ≠ some m := by
  obtain ⟨-, s0, rfl⟩ := planWeek_mem inp _ DAYS (initState r) d rec hmem
  obtain ⟨h1, h2, h3, h4, h5⟩ := planDay_fullday_excl inp _ d s0 m hday hm
  exact ⟨h1, h2, h3, h4, by rw [h5]; exact fun hx => Option.noConfusion hx⟩

/-- Witness for C1: in the witness week, Tuesday's duty holder LS is
absent from all of Tuesday's lab, screening and lunch-guard slots. -/
theorem fullday_duty_exclusive_witness :
    (("Tuesday", wRecTue) ∈ generateWeek inpW rngZero) ∧
    ((mdkAssignments inpW).lookup ("Tuesday") = some ("LS")) ∧
    (("LS") ∉ wRecTue.morningAssign.map Prod.fst ∧ ("LS") ∉ wRecTue.screenMorning ∧
      ("LS") ∉ wRecTue.afternoonAssign.map Prod.fst ∧ ("LS") ∉ wRecTue.screenAfternoon ∧
      wRecTue.lunchGuard ≠ some ("LS")) :=
  ⟨by with_unfolding_all decide, by with_unfolding_all decide,
    fullday_duty_exclusive inpW rngZero "Tuesday" wRecTue "LS" (Or.inl rfl)
      (by with_unfolding_all decide) (by with_unfolding_all decide)⟩

/-- Claim C6: for every generated week, Monday's duty holder (the
half-day duty) appears in no morning lab assignment and no morning
screening slot of Monday, but remains in the afternoon-eligible pool
from which Monday's afternoon lab and afternoon screening slots are
drawn. -/
theorem monday_halfday_duty (inp : Inputs) (r : RNG) (rec : DayResult) (m : String)
    (hmem : (("Monday" : String), rec) ∈ generateWeek inp r)
    (hm : (mdkAssignments inp).lookup ("Monday") = some m) :
    m ∉ rec.morningAssign.map Prod.fst ∧ m ∉ rec.screenMorning ∧
    m ∈ availableForAfternoon inp ("Monday") (some m) := by
  obtain ⟨-, s0, rfl⟩ := planWeek_mem inp _ DAYS (initState r) _ rec hmem
  obtain ⟨h1, h2⟩ := planDay_monday_excl inp _ s0 m hm
  refine ⟨h1, h2, ?_⟩
  have hd := lookup_mem _ _ _ hm
  have hav := (mdkAssignments_mem inp _ _ hd).2
  exact mem_availableForAfternoon_of_not_full inp _ m rfl
    (availForDuty_subset_availDay inp _ hav)

/-- Witness for C6: in the witness week, Monday's duty holder AH is
absent from Monday's morning slots yet afternoon-eligible (and indeed
appears in Monday's afternoon lab assignment). -/
theorem monday_halfday_duty_witness :
    ((("Monday" : String), wRecMon) ∈ generateWeek inpW rngZero) ∧
    ((mdkAssignments inpW).lookup ("Monday") = some ("AH")) ∧
    (("AH") ∉ wRecMon.morningAssign.map Prod.fst ∧ ("AH") ∉ wRecMon.screenMorning ∧
      ("AH") ∈ availableForAfternoon inpW ("Monday") (some ("AH"))) ∧
    ("AH") ∈ wRecMon.afternoonAssign.map Prod.fst :=
  ⟨by with_unfolding_all decide, by with_unfolding_all decide,
    monday_halfday_duty inpW rngZero wRecMon "AH"
      (by with_unfolding_all decide) (by with_unfolding_all decide),
    by with_unfolding_all decide⟩

/-- Claim C7: an employee whose work rate is 0 is never the MDK holder
of any day and never appears in a morning or afternoon screening slot
of any day of the generated week. -/
theorem zero_rate_excluded (inp : Inputs) (r : RNG) (e : String)
    (hw : wrGetD inp.workRates e 0 = 0) :
    (∀ d c, (d, c) ∈ mdkAssignments inp → c ≠ e) ∧
    ∀ d rec, (d, rec) ∈ generateWeek inp r →
      e ∉ rec.screenMorning ∧ e ∉ rec.screenAfternoon := by
  constructor
  · intro d c hmem heq
    subst heq
    have hav := (mdkAssignments_mem inp d c hmem).2
    have hp := (List.mem_filter.mp hav).2
    simp only [Bool.and_eq_true, decide_eq_true_eq] at hp
    have hr := hp.1.2
    omega
  · intro d rec hmem
    obtain ⟨-, s0, rfl⟩ := planWeek_mem inp _ DAYS (initState r) d rec hmem
    exact planDay_zero_rate inp _ d s0 e hw

/-- Witness for C7: KL has work rate 0 in the witness roster; Monday's
duty holder is not KL and KL is absent from Wednesday's screening. -/
theorem zero_rate_excluded_witness :
    (wrGetD inpW.workRates ("KL") 0 = 0) ∧
    (("AH" : String) ≠ ("KL")) ∧
    (("KL") ∉ wRecWed.screenMorning ∧ ("KL") ∉ wRecWed.screenAfternoon) :=
  ⟨by decide,
    (zero_rate_excluded inpW rngZero "KL" (by decide)).1 "Monday" "AH"
      (by with_unfolding_all decide),
    (zero_rate_excluded inpW rngZero "KL" (by decide)).2 "Wednesday" wRecWed
      (by with_unfolding_all decide)⟩

/-- Claim C8: the afternoon station search makes at most 10 shuffle
attempts (the attempt sequence has length exactly 10) and always
terminates: it returns the first attempt in which every person who
also had a morning station gets a different one, or the last attempt
when no attempt succeeds; the returned assignment maps exactly the
chosen afternoon lab people, each to a distinct station.  (The day
planner invokes the search with fuel 10, at most 4 people and the 4
distinct shuffled stations, satisfying the length hypotheses.) -/
theorem derangement_search_spec (people : List String) (morning : List (String × String))
    (labsL : List String) (r : RNG)
    (hnodup : labsL.Nodup) (hlen : people.length ≤ labsL.length) :
    (derangeAttempts people 10 labsL r).length = 10 ∧
    (derangeSearch people morning 10 labsL r).1 =
      ((derangeAttempts people 10 labsL r).find? (fun a => derangeOK a morning)).getD
        ((derangeAttempts people 10 labsL r).getLastD []) ∧
    ((derangeSearch people morning 10 labsL r).1).map Prod.fst = people ∧
    (((derangeSearch people morning 10 labsL r).1).map Prod.snd).Nodup :=
  ⟨derangeAttempts_length people 10 labsL r,
    derangeSearch_eq_attempts people morning 10 labsL r (by omega),
    derangeSearch_fst_eq people morning 10 labsL r (by omega) hlen,
    derangeSearch_snd_nodup people morning 10 labsL r hnodup⟩

/-- Witness for C8: two people over the four stations, with AH holding
station LAB 3 in the morning. -/
theorem derangement_search_spec_witness :
    (labsInit.Nodup ∧ (["AH", "LS"] : List String).length ≤ labsInit.length) ∧
    ((derangeAttempts ["AH", "LS"] 10 labsInit rngZero).length = 10 ∧
      (derangeSearch ["AH", "LS"] [("AH", "LAB 3")] 10 labsInit rngZero).1 =
        ((derangeAttempts ["AH", "LS"] 10 labsInit rngZero).find?
            (fun a => derangeOK a [("AH", "LAB 3")])).getD
          ((derangeAttempts ["AH", "LS"] 10 labsInit rngZero).getLastD []) ∧
      ((derangeSearch ["AH", "LS"] [("AH", "LAB 3")] 10 labsInit rngZero).1).map Prod.fst =
        ["AH", "LS"] ∧
      (((derangeSearch ["AH", "LS"] [("AH", "LAB 3")] 10 labsInit rngZero).1).map
          Prod.snd).Nodup) :=
  ⟨⟨by decide, by decide⟩,
    derangement_search_spec ["AH", "LS"] [("AH", "LAB 3")] labsInit rngZero
      (by decide) (by decide)⟩

/-- Claim C10: Wednesday is never a duty day (the MDK lookup for
Wednesday is always `none`, since `mdk_days` is exactly Monday,
Tuesday, Thursday), and whenever Wednesday's available pool is
nonempty the generated week assigns a lunch guard on Wednesday. -/
theorem wednesday_no_duty_lunch_guard (inp : Inputs) (r : RNG)
    (h : availDay inp ("Wednesday") ≠ []) :
    (mdkAssignments inp).lookup ("Wednesday") = none ∧
    ((generateWeek inp r).lookup ("Wednesday")).isSome = true ∧
    ((((generateWeek inp r).lookup ("Wednesday")).getD default).lunchGuard).isSome = true := by
  have h1 : (mdkAssignments inp).lookup ("Wednesday") = none := by
    cases hl : (mdkAssignments inp).lookup ("Wednesday") with
    | none => rfl
    | some c =>
        have hdin := (mdkAssignments_mem inp _ c (lookup_mem _ _ _ hl)).1
        exact absurd hdin (by decide)
  have hkeys : (generateWeek inp r).map Prod.fst = DAYS :=
    planWeek_keys inp (mdkAssignments inp) DAYS (initState r)
  obtain ⟨rec, hrec⟩ :=
    lookup_keys_some (generateWeek inp r) "Wednesday" (by rw [hkeys]; decide)
  have hmem := lookup_mem _ _ _ hrec
  obtain ⟨-, s0, hplan⟩ := planWeek_mem inp _ DAYS (initState r) _ rec hmem
  refine ⟨h1, by rw [hrec]; rfl, ?_⟩
  rw [hrec]
  simp only [Option.getD_some]
  rw [hplan]
  exact planDay_wednesday_lunch inp _ s0 h1 h

/-- Witness for C10: the witness roster has a nonempty Wednesday pool;
no Wednesday MDK entry exists and the Wednesday lunch guard is set. -/
theorem wednesday_no_duty_lunch_guard_witness :
    (availDay inpW ("Wednesday") ≠ []) ∧
    ((mdkAssignments inpW).lookup ("Wednesday") = none ∧
      ((generateWeek inpW rngZero).lookup ("Wednesday")).isSome = true ∧
      ((((generateWeek inpW rngZero).lookup ("Wednesday")).getD default).lunchGuard).isSome =
        true) :=
  ⟨by decide, wednesday_no_duty_lunch_guard inpW rngZero (by decide)⟩
